import Mathlib

/-!
Verification of the MapReduce word-frequency engine in `task_2.py`.

Strings are modelled as `List Char`, Python `dict`s as association lists in
insertion order (Python dicts preserve insertion order), and the two
`ThreadPoolExecutor.map` calls as `List.map` (`executor.map` preserves the
order of its input and applies a pure function to each element, so its
observable result is exactly `List.map`).
-/

/-- Python's `string.punctuation`: the 32 ASCII punctuation characters removed
by `remove_punctuation` (`task_2.py` line 47). -/
def pythonPunctuation : List Char :=
  ("!\"#$%&\x27()*+,-./:;<=>?@[\\]^_\x60\x7b|\x7d~").data

/-- Whitespace recognised by Python's `str.split()` with no arguments
(ASCII whitespace: space, tab, newline, carriage return, vertical tab,
form feed). -/
def isPySpace (c : Char) : Bool :=
  c == ' ' || c == '\t' || c == '\n' || c == '\r' || c == '\x0b' || c == '\x0c'

/-- Helper for `pySplit`: `acc` is the reversed current word. -/
def pySplitAux : List Char → List Char → List (List Char)
  | acc, [] => if acc.isEmpty then [] else [acc.reverse]
  | acc, c :: cs =>
    if isPySpace c then
      if acc.isEmpty then pySplitAux [] cs
      else acc.reverse :: pySplitAux [] cs
    else pySplitAux (c :: acc) cs

/-- Python's `str.split()` with no arguments: split on runs of whitespace,
dropping empty strings (`task_2.py` line 110, `text.split()`). -/
def pySplit (text : List Char) : List (List Char) :=
  pySplitAux [] text

/-- `remove_punctuation` (`task_2.py` lines 37-47):
`text.translate(str.maketrans("", "", string.punctuation))` deletes every
character of `string.punctuation` from the text. -/
def remove_punctuation (text : List Char) : List Char :=
  text.filter (fun c => decide (c ∉ pythonPunctuation))

/-- `map_function` (`task_2.py` lines 50-61): `word ↦ (word, 1)`. -/
def map_function (word : List Char) : List Char × Nat :=
  (word, 1)

/-- One step of Python's `defaultdict(list)` grouping: append `v` to the list
stored at `key`, creating the entry (at the end, i.e. in insertion order) if
`key` is new. -/
def insertPair (acc : List (List Char × List Nat)) (key : List Char) (v : Nat) :
    List (List Char × List Nat) :=
  match acc with
  | [] => [(key, [v])]
  | (k, vs) :: rest =>
    if k = key then (k, vs ++ [v]) :: rest else (k, vs) :: insertPair rest key v

/-- `shuffle_function` (`task_2.py` lines 64-78): group mapped pairs by key
with a `defaultdict(list)`; Python dict iteration order is key insertion
order, and each key's values appear in consumption order. -/
def shuffle_function (mapped_values : List (List Char × Nat)) :
    List (List Char × List Nat) :=
  mapped_values.foldl (fun acc kv => insertPair acc kv.1 kv.2) []

/-- `reduce_function` (`task_2.py` lines 81-93): `(key, values) ↦ (key, sum(values))`. -/
def reduce_function (key_values : List Char × List Nat) : List Char × Nat :=
  (key_values.1, key_values.2.sum)

/-- One step of Python's `dict(pairs)` construction: a repeated key keeps its
first position but takes the latest value. -/
def dictInsert (acc : List (List Char × Nat)) (k : List Char) (v : Nat) :
    List (List Char × Nat) :=
  match acc with
  | [] => [(k, v)]
  | (k', v') :: rest =>
    if k' = k then (k, v) :: rest else (k', v') :: dictInsert rest k v

/-- Python's `dict(pairs)` (`task_2.py` line 126). -/
def dictOfList (l : List (List Char × Nat)) : List (List Char × Nat) :=
  l.foldl (fun acc kv => dictInsert acc kv.1 kv.2) []

/-- Lookup in an association-list dict (Python `d[k]` / `k in d`). -/
def dictLookup (k : List Char) : List (List Char × Nat) → Option Nat
  | [] => none
  | (k', v) :: rest => if k' = k then some v else dictLookup k rest

/-- The token sequence T of `map_reduce` (`task_2.py` lines 108-113): strip
punctuation, split on whitespace, and — only when `search_words` is a
non-empty list (Python `if search_words:` is false for both `None` and
`[]`) — keep only words belonging to `search_words`. -/
def filtered_tokens (text : List Char) (search_words : Option (List (List Char))) :
    List (List Char) :=
  let words := pySplit (remove_punctuation text)
  match search_words with
  | none => words
  | some sw => if sw.isEmpty then words else words.filter (fun w => decide (w ∈ sw))

/-- `map_reduce` (`task_2.py` lines 96-126): tokenize and filter, map each
word to `(word, 1)` in order, shuffle, reduce each group, and build the final
dict. -/
def map_reduce (text : List Char) (search_words : Option (List (List Char)) := none) :
    List (List Char × Nat) :=
  let words := filtered_tokens text search_words
  let mapped_values := words.map map_function
  let shuffled_values := shuffle_function mapped_values
  let reduced_values := shuffled_values.map reduce_function
  dictOfList reduced_values

/-- The sort in `visualize_top_words` (`task_2.py` line 142):
`sorted(word_frequencies.items(), key=lambda x: x[1], reverse=True)`.
Python's sort is stable; with `reverse=True` it orders by count descending,
equal counts keeping their original relative order. A stable sort with
respect to a fixed total preorder has a unique result, so any stable sort
embeds it faithfully; `List.insertionSort` with the relation `b.2 ≤ a.2`
is such a stable sort. -/
def sorted_frequencies (word_frequencies : List (List Char × Nat)) :
    List (List Char × Nat) :=
  word_frequencies.insertionSort (fun a b => b.2 ≤ a.2)

/-- The top-K slice taken by `visualize_top_words`
(`task_2.py` lines 145-146): `sorted_frequencies[:num_top_words]`. -/
def top_entries (word_frequencies : List (List Char × Nat)) (num_top_words : Nat) :
    List (List Char × Nat) :=
  (sorted_frequencies word_frequencies).take num_top_words

/-- Minimum of a list of counts (`none` for the empty list). -/
def minCount : List Nat → Option Nat
  | [] => none
  | n :: ns => some (ns.foldl min n)

/-- Lookup in the grouped association list produced by `shuffle_function`. -/
def groupLookup (k : List Char) : List (List Char × List Nat) → Option (List Nat)
  | [] => none
  | (k', vs) :: rest => if k' = k then some vs else groupLookup k rest

/-- Extend an optional group of counts with a further batch of counts;
describes how a run of `insertPair` steps changes one key's group. -/
def extendGroup : Option (List Nat) → List Nat → Option (List Nat)
  | some vs, tail => some (vs ++ tail)
  | none, tail => if tail.isEmpty then none else some tail

/-! ### Lemmas about `insertPair` and `shuffle_function` -/

theorem extendGroup_nil (o : Option (List Nat)) : extendGroup o [] = o := by
  cases o <;> simp [extendGroup]

theorem groupLookup_insertPair (acc : List (List Char × List Nat))
    (key : List Char) (v : Nat) (k : List Char) :
    groupLookup k (insertPair acc key v) =
      if key = k then extendGroup (groupLookup k acc) [v]
      else groupLookup k acc := by
  induction acc with
  | nil =>
    by_cases h : key = k <;> simp [insertPair, groupLookup, extendGroup, h]
  | cons p rest ih =>
    obtain ⟨k', vs⟩ := p
    by_cases h1 : k' = key
    · subst h1
      by_cases h2 : k' = k
      · subst h2
        simp [insertPair, groupLookup, extendGroup]
      · simp [insertPair, groupLookup, h2]
    · by_cases h2 : k' = k
      · subst h2
        have hne : ¬ key = k' := fun h => h1 h.symm
        simp [insertPair, groupLookup, h1, hne, extendGroup]
      · simp [insertPair, groupLookup, h1, h2, ih]

theorem extendGroup_assoc (o : Option (List Nat)) (t1 t2 : List Nat)
    (h : t1 ≠ []) :
    extendGroup (extendGroup o t1) t2 = extendGroup o (t1 ++ t2) := by
  cases o with
  | some vs => simp [extendGroup]
  | none =>
    simp only [extendGroup, List.isEmpty_iff, List.append_eq_nil]
    rw [if_neg h, if_neg (fun hc => h hc.1)]

/-- Characterization of one key's group after folding `insertPair` over a
list of pairs, for an arbitrary starting accumulator. -/
theorem groupLookup_foldl_insertPair (l : List (List Char × Nat))
    (acc : List (List Char × List Nat)) (k : List Char) :
    groupLookup k (l.foldl (fun acc kv => insertPair acc kv.1 kv.2) acc) =
      extendGroup (groupLookup k acc)
        ((l.filter (fun p => decide (p.1 = k))).map Prod.snd) := by
  induction l generalizing acc with
  | nil => simp [extendGroup_nil]
  | cons p rest ih =>
    simp only [List.foldl_cons, ih, groupLookup_insertPair]
    by_cases h : p.1 = k
    · rw [if_pos h, extendGroup_assoc _ _ _ (by simp)]
      simp [h]
    · rw [if_neg h]
      simp [h]

/-- One key's group in the output of `shuffle_function`: `none` when the key
never occurs, otherwise exactly the values carried by that key's pairs, in
input order. -/
theorem groupLookup_shuffle (l : List (List Char × Nat)) (k : List Char) :
    groupLookup k (shuffle_function l) =
      if (l.filter (fun p => decide (p.1 = k))).isEmpty then none
      else some ((l.filter (fun p => decide (p.1 = k))).map Prod.snd) := by
  rw [shuffle_function, groupLookup_foldl_insertPair]
  simp only [groupLookup, extendGroup]
  by_cases h : (l.filter (fun p => decide (p.1 = k))).isEmpty
  · have h2 : (l.filter (fun p => decide (p.1 = k))).map Prod.snd = [] := by
      rw [List.isEmpty_iff] at h
      simp [h]
    simp [h, h2]
  · have h2 : ¬ ((l.filter (fun p => decide (p.1 = k))).map Prod.snd).isEmpty = true := by
      simp only [List.isEmpty_iff, List.map_eq_nil_iff]
      simpa [List.isEmpty_iff] using h
    simp [h, h2]

theorem insertPair_keys (acc : List (List Char × List Nat)) (key : List Char)
    (v : Nat) :
    (insertPair acc key v).map Prod.fst =
      if key ∈ acc.map Prod.fst then acc.map Prod.fst
      else acc.map Prod.fst ++ [key] := by
  induction acc with
  | nil => simp [insertPair]
  | cons p rest ih =>
    obtain ⟨k', vs⟩ := p
    by_cases h : k' = key
    · subst h
      simp [insertPair]
    · have hne : ¬ key = k' := fun hc => h hc.symm
      by_cases h2 : key ∈ rest.map Prod.fst <;>
        simp [insertPair, h, hne, h2, ih]

theorem foldl_insertPair_keys_nodup (l : List (List Char × Nat)) :
    ∀ acc : List (List Char × List Nat), (acc.map Prod.fst).Nodup →
      (((l.foldl (fun acc kv => insertPair acc kv.1 kv.2) acc)).map Prod.fst).Nodup := by
  induction l with
  | nil => intro acc h; simpa using h
  | cons p rest ih =>
    intro acc h
    refine ih _ ?_
    rw [insertPair_keys]
    by_cases hm : p.1 ∈ acc.map Prod.fst
    · simpa [hm] using h
    · rw [if_neg hm]
      simpa [List.nodup_append, hm] using h

/-- The keys in the output of `shuffle_function` are pairwise distinct:
they are the keys of a Python `dict`. -/
theorem shuffle_function_keys_nodup (l : List (List Char × Nat)) :
    ((shuffle_function l).map Prod.fst).Nodup :=
  foldl_insertPair_keys_nodup l [] (by simp)

theorem insertPair_sum (acc : List (List Char × List Nat)) (key : List Char)
    (v : Nat) :
    ((insertPair acc key v).map (fun e => e.2.sum)).sum =
      (acc.map (fun e => e.2.sum)).sum + v := by
  induction acc with
  | nil => simp [insertPair]
  | cons p rest ih =>
    obtain ⟨k', vs⟩ := p
    by_cases h : k' = key <;> simp [insertPair, h, ih] <;> omega

/-- Folding `insertPair` conserves the total of all carried counts. -/
theorem foldl_insertPair_sum (l : List (List Char × Nat)) :
    ∀ acc : List (List Char × List Nat),
      (((l.foldl (fun acc kv => insertPair acc kv.1 kv.2) acc)).map
          (fun e => e.2.sum)).sum =
        (acc.map (fun e => e.2.sum)).sum + (l.map Prod.snd).sum := by
  induction l with
  | nil => simp
  | cons p rest ih =>
    intro acc
    simp [ih, insertPair_sum]
    omega

/-! ### Lemmas about `dictOfList` and `dictLookup` -/

theorem dictInsert_of_not_mem (acc : List (List Char × Nat)) (k : List Char)
    (v : Nat) (h : k ∉ acc.map Prod.fst) :
    dictInsert acc k v = acc ++ [(k, v)] := by
  induction acc with
  | nil => simp [dictInsert]
  | cons p rest ih =>
    simp only [List.map_cons, List.mem_cons, not_or] at h
    obtain ⟨k', v'⟩ := p
    have hne : ¬ (k' = k) := fun hc => h.1 hc.symm
    simp only [dictInsert, if_neg hne, List.cons_append, List.cons.injEq, true_and]
    exact ih h.2

theorem foldl_dictInsert_eq_append (l : List (List Char × Nat)) :
    ∀ acc : List (List Char × Nat), ((acc ++ l).map Prod.fst).Nodup →
      l.foldl (fun acc kv => dictInsert acc kv.1 kv.2) acc = acc ++ l := by
  induction l with
  | nil => intro acc _; simp
  | cons p rest ih =>
    intro acc h
    have hk : p.1 ∉ acc.map Prod.fst := by
      intro hc
      rw [List.map_append, List.nodup_append] at h
      exact h.2.2 hc (by simp)
    rw [List.foldl_cons, dictInsert_of_not_mem _ _ _ hk, ih]
    · simp
    · simpa using h

/-- `dict(pairs)` is the identity on an association list with distinct keys. -/
theorem dictOfList_eq_self (l : List (List Char × Nat))
    (h : (l.map Prod.fst).Nodup) : dictOfList l = l := by
  rw [dictOfList, foldl_dictInsert_eq_append l [] (by simpa using h)]
  simp

theorem dictLookup_eq_none_iff (k : List Char) (l : List (List Char × Nat)) :
    dictLookup k l = none ↔ k ∉ l.map Prod.fst := by
  induction l with
  | nil => simp [dictLookup]
  | cons p rest ih =>
    obtain ⟨k', v⟩ := p
    by_cases h : k' = k
    · subst h
      simp [dictLookup]
    · have hne : ¬ (k = k') := fun hc => h hc.symm
      simp [dictLookup, h, hne, ih]

theorem dictLookup_eq_some_mem {k : List Char} {l : List (List Char × Nat)}
    {v : Nat} (h : dictLookup k l = some v) : (k, v) ∈ l := by
  induction l with
  | nil => simp [dictLookup] at h
  | cons p rest ih =>
    obtain ⟨k', v'⟩ := p
    by_cases hk : k' = k
    · subst hk
      simp [dictLookup] at h
      subst h
      simp
    · rw [dictLookup, if_neg hk] at h
      exact List.mem_cons_of_mem _ (ih h)

theorem dictLookup_of_mem_nodup {l : List (List Char × Nat)}
    (h : (l.map Prod.fst).Nodup) {p : List Char × Nat} (hp : p ∈ l) :
    dictLookup p.1 l = some p.2 := by
  induction l with
  | nil => simp at hp
  | cons q rest ih =>
    obtain ⟨k', v'⟩ := q
    rw [List.map_cons] at h
    have hnd := List.nodup_cons.mp h
    rcases List.mem_cons.mp hp with h1 | h1
    · subst h1
      simp [dictLookup]
    · have hk : ¬ (k' = p.1) := by
        intro hc
        have hmem : p.1 ∈ rest.map Prod.fst := List.mem_map_of_mem Prod.fst h1
        exact hnd.1 (hc.symm ▸ hmem)
      rw [dictLookup, if_neg hk]
      exact ih hnd.2 h1

theorem map_fst_map_reduce_function (g : List (List Char × List Nat)) :
    (g.map reduce_function).map Prod.fst = g.map Prod.fst := by
  rw [List.map_map]
  rfl

theorem dictLookup_map_reduce_function (g : List (List Char × List Nat))
    (k : List Char) :
    dictLookup k (g.map reduce_function) = (groupLookup k g).map List.sum := by
  induction g with
  | nil => simp [dictLookup, groupLookup]
  | cons p rest ih =>
    obtain ⟨k', vs⟩ := p
    by_cases h : k' = k <;>
      simp [reduce_function, dictLookup, groupLookup, h, ih]

theorem filter_key_map_map_function (words : List (List Char)) (k : List Char) :
    (words.map map_function).filter (fun p => decide (p.1 = k)) =
      (words.filter (fun w => decide (w = k))).map map_function := by
  rw [List.filter_map]
  rfl

theorem sum_map_one (l : List (List Char)) :
    (l.map (fun _ => (1 : Nat))).sum = l.length := by
  induction l with
  | nil => rfl
  | cons _ _ ih => simp [ih, Nat.add_comm]

/-- Master characterization of `map_reduce`: looking up a key in the final
Frequency Table yields `none` when the key is not among the filtered tokens,
and the key's number of occurrences among the filtered tokens otherwise. -/
theorem dictLookup_map_reduce (text : List Char)
    (sw : Option (List (List Char))) (k : List Char) :
    dictLookup k (map_reduce text sw) =
      if (filtered_tokens text sw).filter (fun w => decide (w = k)) = []
      then none
      else some (((filtered_tokens text sw).filter (fun w => decide (w = k))).length) := by
  have hnodup :
      (((shuffle_function ((filtered_tokens text sw).map map_function)).map
          reduce_function).map Prod.fst).Nodup := by
    rw [map_fst_map_reduce_function]
    exact shuffle_function_keys_nodup _
  rw [map_reduce, dictOfList_eq_self _ hnodup, dictLookup_map_reduce_function,
    groupLookup_shuffle, filter_key_map_map_function]
  by_cases h : (filtered_tokens text sw).filter (fun w => decide (w = k)) = []
  · rw [h]
    simp
  · rw [if_neg h]
    have hb : ¬ ((((filtered_tokens text sw).filter
        (fun w => decide (w = k))).map map_function).isEmpty = true) := by
      simpa [List.isEmpty_iff] using h
    rw [if_neg hb]
    simp only [Option.map_some']
    have hsnd : (((filtered_tokens text sw).filter
        (fun w => decide (w = k))).map map_function).map Prod.snd =
        ((filtered_tokens text sw).filter (fun w => decide (w = k))).map
          (fun _ => (1 : Nat)) := by
      rw [List.map_map]
      rfl
    rw [hsnd, sum_map_one]

/-- The final table of `map_reduce` has pairwise distinct keys. -/
theorem map_reduce_keys_nodup (text : List Char)
    (sw : Option (List (List Char))) :
    ((map_reduce text sw).map Prod.fst).Nodup := by
  have hnodup :
      (((shuffle_function ((filtered_tokens text sw).map map_function)).map
          reduce_function).map Prod.fst).Nodup := by
    rw [map_fst_map_reduce_function]
    exact shuffle_function_keys_nodup _
  rw [map_reduce, dictOfList_eq_self _ hnodup]
  exact hnodup

/-- A key is in the final table exactly when it is one of the filtered tokens. -/
theorem mem_keys_map_reduce_iff (text : List Char)
    (sw : Option (List (List Char))) (k : List Char) :
    k ∈ (map_reduce text sw).map Prod.fst ↔ k ∈ filtered_tokens text sw := by
  constructor
  · intro hk
    have hne : ¬ (dictLookup k (map_reduce text sw) = none) := by
      rw [dictLookup_eq_none_iff]
      exact fun hc => hc hk
    rw [dictLookup_map_reduce] at hne
    by_cases h : (filtered_tokens text sw).filter (fun w => decide (w = k)) = []
    · exact absurd (if_pos h) hne
    · obtain ⟨w, hw⟩ := List.exists_mem_of_ne_nil _ h
      have := List.mem_filter.mp hw
      have hwk : w = k := by simpa using this.2
      exact hwk ▸ this.1
  · intro hk
    by_contra hc
    have hnone : dictLookup k (map_reduce text sw) = none :=
      (dictLookup_eq_none_iff k _).mpr hc
    rw [dictLookup_map_reduce] at hnone
    have hmem : k ∈ (filtered_tokens text sw).filter (fun w => decide (w = k)) :=
      List.mem_filter.mpr ⟨hk, by simp⟩
    have hne : ¬ ((filtered_tokens text sw).filter (fun w => decide (w = k)) = []) := by
      intro h0
      rw [h0] at hmem
      simp at hmem
    rw [if_neg hne] at hnone
    simp at hnone

theorem mem_pySplitAux_ne_nil (cs : List Char) :
    ∀ acc w, w ∈ pySplitAux acc cs → w ≠ [] := by
  induction cs with
  | nil =>
    intro acc w hw
    by_cases h : acc.isEmpty
    · simp [pySplitAux, h] at hw
    · simp only [pySplitAux, if_neg h, List.mem_singleton] at hw
      subst hw
      simp only [ne_eq, List.reverse_eq_nil_iff]
      simpa [List.isEmpty_iff] using h
  | cons c cs ih =>
    intro acc w hw
    by_cases hsp : isPySpace c
    · by_cases h : acc.isEmpty
      · rw [pySplitAux, if_pos hsp, if_pos h] at hw
        exact ih [] w hw
      · rw [pySplitAux, if_pos hsp, if_neg h] at hw
        rcases List.mem_cons.mp hw with h1 | h1
        · subst h1
          simp only [ne_eq, List.reverse_eq_nil_iff]
          simpa [List.isEmpty_iff] using h
        · exact ih [] w h1
    · rw [pySplitAux, if_neg hsp] at hw
      exact ih (c :: acc) w hw

/-- Every word produced by `str.split()` is non-empty. -/
theorem mem_pySplit_ne_nil (text : List Char) :
    ∀ w ∈ pySplit text, w ≠ [] := fun w hw =>
  mem_pySplitAux_ne_nil text [] w hw

/-- Every filtered token is one of the split words. -/
theorem mem_filtered_tokens_sub (text : List Char)
    (sw : Option (List (List Char))) :
    ∀ w ∈ filtered_tokens text sw, w ∈ pySplit (remove_punctuation text) := by
  intro w hw
  cases sw with
  | none => exact hw
  | some l =>
    rw [filtered_tokens] at hw
    by_cases h : l.isEmpty
    · simpa [h] using hw
    · rw [if_neg h] at hw
      exact (List.mem_filter.mp hw).1

/-- The full shuffle-reduce-dict pipeline, characterized on an arbitrary
list of mapped pairs: a key's final count is the sum of all values carried
by that key's pairs. -/
theorem shuffle_reduce_lookup (l : List (List Char × Nat)) (k : List Char) :
    dictLookup k (dictOfList ((shuffle_function l).map reduce_function)) =
      if (l.filter (fun p => decide (p.1 = k))).isEmpty then none
      else some (((l.filter (fun p => decide (p.1 = k))).map Prod.snd).sum) := by
  have hnodup : (((shuffle_function l).map reduce_function).map Prod.fst).Nodup := by
    rw [map_fst_map_reduce_function]
    exact shuffle_function_keys_nodup _
  rw [dictOfList_eq_self _ hnodup, dictLookup_map_reduce_function,
    groupLookup_shuffle]
  by_cases h : (l.filter (fun p => decide (p.1 = k))).isEmpty <;> simp [h]

/-- `dictLookup` agrees across permutations of a table with distinct keys. -/
theorem dictLookup_perm_of_nodup {l₁ l₂ : List (List Char × Nat)}
    (hperm : l₁.Perm l₂) (h1 : (l₁.map Prod.fst).Nodup) (k : List Char) :
    dictLookup k l₁ = dictLookup k l₂ := by
  have h2 : (l₂.map Prod.fst).Nodup := ((hperm.map Prod.fst).nodup_iff).mp h1
  cases hl : dictLookup k l₁ with
  | none =>
    rw [dictLookup_eq_none_iff] at hl
    symm
    rw [dictLookup_eq_none_iff]
    exact fun hc => hl (((hperm.map Prod.fst).mem_iff).mpr hc)
  | some v =>
    have hmem : (k, v) ∈ l₂ := hperm.mem_iff.mp (dictLookup_eq_some_mem hl)
    exact (dictLookup_of_mem_nodup h2 hmem).symm

theorem foldl_min_le {x : Nat} :
    ∀ (ns : List Nat) (n : Nat), x ≤ n → (∀ c ∈ ns, x ≤ c) → x ≤ ns.foldl min n := by
  intro ns
  induction ns with
  | nil => intro n hn _; simpa using hn
  | cons c cs ih =>
    intro n hn hc
    rw [List.foldl_cons]
    exact ih (min n c) (le_min hn (hc c (by simp))) fun d hd => hc d (by simp [hd])

/-- A lower bound for every element is a lower bound for `minCount`. -/
theorem le_minCount {x m : Nat} {counts : List Nat}
    (hm : minCount counts = some m) (h : ∀ c ∈ counts, x ≤ c) : x ≤ m := by
  cases counts with
  | nil => simp [minCount] at hm
  | cons n ns =>
    rw [minCount, Option.some.injEq] at hm
    subst hm
    exact foldl_min_le ns n (h n (by simp)) fun c hc => h c (by simp [hc])

/-- The sort in `visualize_top_words` is a permutation of the table. -/
theorem sorted_frequencies_perm (wf : List (List Char × Nat)) :
    (sorted_frequencies wf).Perm wf :=
  List.perm_insertionSort _ wf

/-- The sort in `visualize_top_words` is non-increasing in the counts. -/
theorem sorted_frequencies_pairwise (wf : List (List Char × Nat)) :
    (sorted_frequencies wf).Pairwise (fun a b => b.2 ≤ a.2) := by
  haveI : IsTotal (List Char × Nat) (fun a b => b.2 ≤ a.2) :=
    ⟨fun a b => Nat.le_total b.2 a.2⟩
  haveI : IsTrans (List Char × Nat) (fun a b => b.2 ≤ a.2) :=
    ⟨fun _ _ _ hab hbc => Nat.le_trans hbc hab⟩
  exact List.sorted_insertionSort _ wf

/-- Helper: when tokenization-plus-filtering yields no words, the whole
pipeline yields the empty table. -/
theorem map_reduce_eq_nil (text : List Char) (sw : Option (List (List Char)))
    (h : filtered_tokens text sw = []) : map_reduce text sw = [] := by
  rw [map_reduce, h]
  rfl

/-- Helper: an empty input text tokenizes to no words, whatever the filter. -/
theorem filtered_tokens_nil (sw : Option (List (List Char))) :
    filtered_tokens [] sw = [] := by
  cases sw with
  | none => rfl
  | some l => cases l <;> rfl

/-! ### Claim theorems -/

/-- C1. Count conservation: for every input text and optional vocabulary
filter, the sum of all values in the Frequency Table returned by
`map_reduce` equals the number of tokens in the filtered token sequence T
(the words obtained by stripping punctuation, splitting on whitespace, and
applying the vocabulary filter if given). -/
theorem map_reduce_count_conservation (text : List Char)
    (sw : Option (List (List Char))) :
    ((map_reduce text sw).map Prod.snd).sum = (filtered_tokens text sw).length := by
  have hnodup :
      (((shuffle_function ((filtered_tokens text sw).map map_function)).map
          reduce_function).map Prod.fst).Nodup := by
    rw [map_fst_map_reduce_function]
    exact shuffle_function_keys_nodup _
  rw [map_reduce, dictOfList_eq_self _ hnodup]
  have h1 : ((shuffle_function ((filtered_tokens text sw).map map_function)).map
        reduce_function).map Prod.snd =
      (shuffle_function ((filtered_tokens text sw).map map_function)).map
        (fun e => e.2.sum) := by
    rw [List.map_map]
    rfl
  rw [h1, shuffle_function, foldl_insertPair_sum]
  have h2 : ((filtered_tokens text sw).map map_function).map Prod.snd =
      (filtered_tokens text sw).map (fun _ => (1 : Nat)) := by
    rw [List.map_map]
    rfl
  rw [h2, sum_map_one]
  simp

/-- C2. Key completeness: every token w occurring in the filtered token
sequence T is a key of the Frequency Table returned by `map_reduce` with
value ≥ 1, and every key of the Frequency Table occurs in T at least once. -/
theorem map_reduce_key_completeness (text : List Char)
    (sw : Option (List (List Char))) :
    (∀ w ∈ filtered_tokens text sw,
        ∃ n, dictLookup w (map_reduce text sw) = some n ∧ 1 ≤ n) ∧
      (∀ k ∈ (map_reduce text sw).map Prod.fst, k ∈ filtered_tokens text sw) := by
  constructor
  · intro w hw
    have hmem : w ∈ (filtered_tokens text sw).filter (fun x => decide (x = w)) :=
      List.mem_filter.mpr ⟨hw, by simp⟩
    have hne : ¬ ((filtered_tokens text sw).filter (fun x => decide (x = w)) = []) :=
      List.ne_nil_of_mem hmem
    refine ⟨((filtered_tokens text sw).filter (fun x => decide (x = w))).length, ?_, ?_⟩
    · rw [dictLookup_map_reduce, if_neg hne]
    · have := List.length_pos.mpr hne
      omega
  · intro k hk
    exact (mem_keys_map_reduce_iff text sw k).mp hk

/-- C2, witnessed on the concrete text `"a a b"` with no filter: the token
`"a"` has an entry with count ≥ 1, and the key `"b"` occurs among the
tokens. -/
theorem map_reduce_key_completeness_witness :
    (∃ n, dictLookup (("a").data) (map_reduce (("a a b").data) none) = some n ∧ 1 ≤ n) ∧
      ("b").data ∈ filtered_tokens (("a a b").data) none :=
  ⟨(map_reduce_key_completeness (("a a b").data) none).1 (("a").data) (by decide),
   (map_reduce_key_completeness (("a a b").data) none).2 (("b").data) (by decide)⟩

/-- C5. No case folding: `map_reduce` performs no case normalization, so
tokens differing only in letter case are counted as distinct keys; on
`"the Quick fox the FOX"` with no vocabulary filter it returns exactly
`{"the": 2, "Quick": 1, "fox": 1, "FOX": 1}`. -/
theorem map_reduce_no_case_folding :
    map_reduce (("the Quick fox the FOX").data) none =
      [((("the").data), 2), ((("Quick").data), 1), ((("fox").data), 1),
        ((("FOX").data), 1)] := by
  decide

/-- C6. Punctuation stripping: tokenization removes every character of the
fixed punctuation set from the text before splitting on whitespace; on input
`"a, b. a! b?"` with no vocabulary filter `map_reduce` returns exactly
`{"a": 2, "b": 2}`. -/
theorem remove_punctuation_strips_punctuation :
    (∀ text : List Char,
        (remove_punctuation text).all (fun c => decide (c ∉ pythonPunctuation)) = true) ∧
      map_reduce (("a, b. a! b?").data) none = [((("a").data), 2), ((("b").data), 2)] := by
  constructor
  · intro text
    rw [List.all_eq_true]
    intro c hc
    rw [remove_punctuation] at hc
    exact (List.mem_filter.mp hc).2
  · decide

/-- C7. Empty input is success, not failure: on the empty input text, and on
any input whose tokens are all removed by tokenization and the optional
vocabulary filter, `map_reduce` returns (it is a total function in this
embedding, modelling normal return) with an empty Frequency Table. -/
theorem map_reduce_empty_input_empty_table :
    (∀ sw : Option (List (List Char)), map_reduce [] sw = []) ∧
      (∀ (text : List Char) (sw : Option (List (List Char))),
        filtered_tokens text sw = [] → map_reduce text sw = []) := by
  constructor
  · intro sw
    exact map_reduce_eq_nil [] sw (filtered_tokens_nil sw)
  · intro text sw h
    exact map_reduce_eq_nil text sw h

/-- C7, witnessed: the empty text with no filter, and the text `"the"`
fully removed by the vocabulary `["a"]`, both yield the empty table. -/
theorem map_reduce_empty_input_empty_table_witness :
    map_reduce [] none = [] ∧ map_reduce (("the").data) (some [("a").data]) = [] :=
  ⟨map_reduce_empty_input_empty_table.1 none,
   map_reduce_empty_input_empty_table.2 (("the").data) (some [("a").data]) (by decide)⟩

/-- C8. Frequency Table well-formedness: for every input text and optional
vocabulary filter, the mapping returned by `map_reduce` has pairwise
distinct keys, every key is a non-empty string, and every value is at
least 1. -/
theorem map_reduce_table_wellformed (text : List Char)
    (sw : Option (List (List Char))) :
    ((map_reduce text sw).map Prod.fst).Nodup ∧
      (map_reduce text sw).Forall (fun p => p.1 ≠ [] ∧ 1 ≤ p.2) := by
  refine ⟨map_reduce_keys_nodup text sw, ?_⟩
  rw [List.forall_iff_forall_mem]
  intro p hp
  have hkey : p.1 ∈ (map_reduce text sw).map Prod.fst :=
    List.mem_map_of_mem Prod.fst hp
  have htok : p.1 ∈ filtered_tokens text sw :=
    (mem_keys_map_reduce_iff text sw p.1).mp hkey
  constructor
  · exact mem_pySplit_ne_nil _ p.1 (mem_filtered_tokens_sub text sw p.1 htok)
  · have hlk := dictLookup_of_mem_nodup (map_reduce_keys_nodup text sw) hp
    rw [dictLookup_map_reduce] at hlk
    have hmem : p.1 ∈ (filtered_tokens text sw).filter (fun w => decide (w = p.1)) :=
      List.mem_filter.mpr ⟨htok, by simp⟩
    have hne : ¬ ((filtered_tokens text sw).filter (fun w => decide (w = p.1)) = []) :=
      List.ne_nil_of_mem hmem
    rw [if_neg hne] at hlk
    have hlen := Option.some.inj hlk
    have hpos := List.length_pos.mpr hne
    omega

/-- C10. Implicit: calling `map_reduce` with `search_words = []` returns the
same Frequency Table as calling it with `search_words` absent — the empty
vocabulary is treated as no filter (Python `if search_words:` is falsy for
`[]`), not as a filter removing every token. -/
theorem map_reduce_empty_vocab_is_no_filter (text : List Char) :
    map_reduce text (some []) = map_reduce text none := rfl

/-- C3, counterexample: the claim "for every provided `allowed_vocabulary` V,
including an empty V, the keys of the table are exactly `set(T) ∩ V`" fails
at text `"a"` with `V = []`: the intersection with the empty vocabulary is
empty, yet `"a"` is a key of the returned table (Python `if search_words:`
skips the filter for an empty list). -/
theorem map_reduce_empty_vocab_counterexample :
    ("a").data ∈ (map_reduce (("a").data) (some [])).map Prod.fst ∧
      ("a").data ∉ ([] : List (List Char)) := by
  constructor <;> decide

/-- C3, amended: for every provided *non-empty* `allowed_vocabulary` V, the
keys of the Frequency Table returned by `map_reduce` are exactly
`set(T) ∩ V` (membership by exact, case-sensitive string equality), where T
is the punctuation-stripped, whitespace-split token sequence; an empty V is
treated as no filter. -/
theorem map_reduce_vocab_filter_keys (text : List Char)
    (sw : List (List Char)) (hsw : sw ≠ []) (k : List Char) :
    k ∈ (map_reduce text (some sw)).map Prod.fst ↔
      k ∈ pySplit (remove_punctuation text) ∧ k ∈ sw := by
  rw [mem_keys_map_reduce_iff]
  rw [filtered_tokens]
  have h : ¬ (sw.isEmpty = true) := by
    simpa [List.isEmpty_iff] using hsw
  rw [if_neg h]
  simp [List.mem_filter]

/-- C3 amended, witnessed on the spec's scenario: with vocabulary
`{"fox"}` on `"the quick fox jumps"`, `"fox"` is a key because it is both a
token and in the vocabulary. -/
theorem map_reduce_vocab_filter_keys_witness :
    ("fox").data ∈
      (map_reduce (("the quick fox jumps").data) (some [("fox").data])).map Prod.fst :=
  (map_reduce_vocab_filter_keys (("the quick fox jumps").data) [("fox").data]
    (by decide) (("fox").data)).mpr ⟨by decide, by decide⟩

/-- C4. Order independence: permuting the list of mapped pairs fed into
`shuffle_function`, or permuting the grouped entries (one entry per key,
as the Shuffle Stage produces them) fed into the reduce step, never changes
the final Frequency Table produced, compared as a mapping from token to
count. -/
theorem shuffle_reduce_order_independence :
    (∀ l₁ l₂ : List (List Char × Nat), l₁.Perm l₂ → ∀ k,
        dictLookup k (dictOfList ((shuffle_function l₁).map reduce_function)) =
          dictLookup k (dictOfList ((shuffle_function l₂).map reduce_function))) ∧
      (∀ g₁ g₂ : List (List Char × List Nat), g₁.Perm g₂ →
          (g₁.map Prod.fst).Nodup → ∀ k,
        dictLookup k (dictOfList (g₁.map reduce_function)) =
          dictLookup k (dictOfList (g₂.map reduce_function))) := by
  constructor
  · intro l₁ l₂ hperm k
    rw [shuffle_reduce_lookup, shuffle_reduce_lookup]
    have hf : (l₁.filter (fun p => decide (p.1 = k))).Perm
        (l₂.filter (fun p => decide (p.1 = k))) := hperm.filter _
    by_cases h : l₁.filter (fun p => decide (p.1 = k)) = []
    · have h2 : l₂.filter (fun p => decide (p.1 = k)) = [] :=
        ((h ▸ hf).symm).eq_nil
      rw [h, h2]
    · have h2 : ¬ (l₂.filter (fun p => decide (p.1 = k)) = []) := by
        intro hc
        exact h ((hc ▸ hf).eq_nil)
      have hb1 : ¬ ((l₁.filter (fun p => decide (p.1 = k))).isEmpty = true) := by
        simpa [List.isEmpty_iff] using h
      have hb2 : ¬ ((l₂.filter (fun p => decide (p.1 = k))).isEmpty = true) := by
        simpa [List.isEmpty_iff] using h2
      rw [if_neg hb1, if_neg hb2, (hf.map Prod.snd).sum_eq]
  · intro g₁ g₂ hperm hnodup k
    have hkeys1 : ((g₁.map reduce_function).map Prod.fst).Nodup := by
      rw [map_fst_map_reduce_function]
      exact hnodup
    have hpermr : (g₁.map reduce_function).Perm (g₂.map reduce_function) :=
      hperm.map _
    have hkeys2 : ((g₂.map reduce_function).map Prod.fst).Nodup :=
      ((hpermr.map Prod.fst).nodup_iff).mp hkeys1
    rw [dictOfList_eq_self _ hkeys1, dictOfList_eq_self _ hkeys2]
    exact dictLookup_perm_of_nodup hpermr hkeys1 k

/-- C4, witnessed on concrete two-element inputs and their transpositions:
both a permuted mapped-pair list and a permuted grouped-entry list yield the
same lookup for the key `"a"`. -/
theorem shuffle_reduce_order_independence_witness :
    dictLookup (("a").data)
        (dictOfList ((shuffle_function
          [((("a").data), 1), ((("b").data), 1)]).map reduce_function)) =
      dictLookup (("a").data)
        (dictOfList ((shuffle_function
          [((("b").data), 1), ((("a").data), 1)]).map reduce_function)) ∧
    dictLookup (("a").data)
        (dictOfList (([((("a").data), [1]), ((("b").data), [1])]).map reduce_function)) =
      dictLookup (("a").data)
        (dictOfList (([((("b").data), [1]), ((("a").data), [1])]).map reduce_function)) :=
  ⟨shuffle_reduce_order_independence.1
      [((("a").data), 1), ((("b").data), 1)]
      [((("b").data), 1), ((("a").data), 1)] (by decide) (("a").data),
   shuffle_reduce_order_independence.2
      [((("a").data), [1]), ((("b").data), [1])]
      [((("b").data), [1]), ((("a").data), [1])] (by decide) (by decide) (("a").data)⟩

/-- C9. Top-K extraction: for every Frequency Table and every K, the
extracted list sorts entries by count descending and takes the first K —
it is non-increasing in count, each of its elements is an entry of the
table, and every table entry with a count strictly greater than the
smallest extracted count is included (tie order unspecified). -/
theorem visualize_top_words_selection (wf : List (List Char × Nat)) (K : Nat) :
    (top_entries wf K).Pairwise (fun a b => b.2 ≤ a.2) ∧
      (∀ p ∈ top_entries wf K, p ∈ wf) ∧
      (∀ p ∈ wf, ∀ m, minCount ((top_entries wf K).map Prod.snd) = some m →
        m < p.2 → p ∈ top_entries wf K) := by
  have htop : top_entries wf K = (sorted_frequencies wf).take K := rfl
  refine ⟨?_, ?_, ?_⟩
  · rw [htop]
    exact (sorted_frequencies_pairwise wf).sublist (List.take_sublist _ _)
  · intro p hp
    rw [htop] at hp
    exact (sorted_frequencies_perm wf).mem_iff.mp
      (List.Sublist.mem hp (List.take_sublist _ _))
  · intro p hp m hm hlt
    by_contra hnot
    have hps : p ∈ sorted_frequencies wf :=
      (sorted_frequencies_perm wf).mem_iff.mpr hp
    have hsplit := List.take_append_drop K (sorted_frequencies wf)
    have hpd : p ∈ (sorted_frequencies wf).drop K := by
      rcases List.mem_append.mp (by rw [hsplit]; exact hps) with h | h
      · rw [← htop] at h
        exact absurd h hnot
      · exact h
    have hpw := sorted_frequencies_pairwise wf
    rw [← hsplit, List.pairwise_append] at hpw
    have hle : ∀ a ∈ top_entries wf K, p.2 ≤ a.2 := by
      intro a ha
      rw [htop] at ha
      exact hpw.2.2 a ha p hpd
    have hpm : p.2 ≤ m := by
      refine le_minCount hm ?_
      intro c hc
      obtain ⟨q, hq, hqc⟩ := List.mem_map.mp hc
      rw [← hqc]
      exact hle q hq
    omega

/-- C9, witnessed on the table `{"a": 3, "b": 1, "c": 2}` with K = 2: the
entry `("a", 3)` has a count above the smallest extracted count 2, and is
indeed among the extracted entries. -/
theorem visualize_top_words_selection_witness :
    ((("a").data), 3) ∈
      top_entries [((("a").data), 3), ((("b").data), 1), ((("c").data), 2)] 2 :=
  (visualize_top_words_selection
      [((("a").data), 3), ((("b").data), 1), ((("c").data), 2)] 2).2.2
    ((("a").data), 3) (by decide) 2 (by decide) (by decide)
